import Mathlib

/-!
Verification of the Swedish-dictionary pipeline: the SALDO lexicon compiler
(`scripts/saldo_parser.py`) and the lookup service
(`services/dictionary_service.py`).

The compiler and the service are embedded shallowly: Python dictionaries
become insertion-ordered association lists (Python 3.7+ dicts preserve
insertion order, and assignment to an existing key keeps its position),
Python strings become `String` with helper functions mirroring the exact
Python string operations used by the source, and each Python function
becomes a Lean function of the same name.
-/

/-- Models Python `str.lower` restricted to the alphabet this pipeline uses:
ASCII letters plus the Swedish letters Å, Ä, Ö (the only non-ASCII letters
appearing in the SALDO surface forms and in the test queries). -/
def pyCharLower (c : Char) : Char :=
  if c = 'Å' then 'å' else if c = 'Ä' then 'ä' else if c = 'Ö' then 'ö' else c.toLower

/-- Python `s.lower()` (see `pyCharLower` for the covered alphabet). -/
def pyLower (s : String) : String := ⟨s.data.map pyCharLower⟩

/-- Python `s.strip()`: drop whitespace from both ends. -/
def pyStrip (s : String) : String :=
  ⟨((s.data.dropWhile Char.isWhitespace).reverse.dropWhile Char.isWhitespace).reverse⟩

/-- Python `s[:n]` for `n ≥ 0`. -/
def pyTake (s : String) (n : Nat) : String := ⟨s.data.take n⟩

/-- Python `s[:-n]` for `n ≥ 1`: all but the last `n` characters. -/
def pyDropright (s : String) (n : Nat) : String := ⟨s.data.take (s.data.length - n)⟩

/-- Python `s.startswith(pre)`. -/
def pyStartswith (s pre : String) : Bool := pre.data.isPrefixOf s.data

/-- Python `s.endswith(suf)`. -/
def pyEndswith (s suf : String) : Bool := suf.data.isSuffixOf s.data

/-- Python `sub in s` (substring containment). -/
def pyContains (s sub : String) : Bool := decide (sub.data <:+: s.data)

/-- Python `s and s[-1] in cs`: the string is nonempty and its last character
is one of `cs`. -/
def lastCharIn (s : String) (cs : List Char) : Bool :=
  match s.data.getLast? with
  | some c => cs.contains c
  | none => false

/-- One raw SALDO record for a surface form: the `partOfSpeech` and `paradigm`
feature values.  A feature missing from the XML behaves as the empty string,
exactly as the source's `entry_data.get('partOfSpeech', '')` /
`entry_data.get('paradigm', '')` defaults. -/
structure RawEntry where
  partOfSpeech : String := ""
  paradigm : String := ""
deriving DecidableEq, Repr

/-- The verb conjugation table built by `generate_forms`: a Python dict with
exactly the keys `infinitive`, `present`, `past`, `supine`, in that insertion
order. -/
structure VerbForms where
  infinitive : String
  present : String
  past : String
  supine : String
deriving DecidableEq, Repr

/-- The adjective form table built by `generate_forms`: a Python dict with
exactly the keys `en_form`, `ett_form`, `plural`, `comparative`,
`superlative`, in that insertion order. -/
structure AdjForms where
  en_form : String
  ett_form : String
  plural : String
  comparative : String
  superlative : String
deriving DecidableEq, Repr

/-- The heterogeneous `forms` value: a dict for verbs, a 4-slot list for
nouns, a dict for adjectives. -/
inductive Forms where
  | vb : VerbForms → Forms
  | nn : List String → Forms
  | adj : AdjForms → Forms
deriving DecidableEq, Repr

/-- The key/value pairs of a verb dict in Python insertion order
(`forms.items()`). -/
def VerbForms.items (f : VerbForms) : List (String × String) :=
  [("infinitive", f.infinitive), ("present", f.present),
   ("past", f.past), ("supine", f.supine)]

/-- The key/value pairs of an adjective dict in Python insertion order
(`forms.items()`). -/
def AdjForms.items (f : AdjForms) : List (String × String) :=
  [("en_form", f.en_form), ("ett_form", f.ett_form), ("plural", f.plural),
   ("comparative", f.comparative), ("superlative", f.superlative)]

/-- Python `isinstance(forms, dict)` together with `forms.items()`: `some`
key/value pairs when the forms value is a dict, `none` for the noun list. -/
def Forms.dictItems : Forms → Option (List (String × String))
  | .vb f => some f.items
  | .adj f => some f.items
  | .nn _ => none

/-- Python `isinstance(forms, list)`: `some` slots when the forms value is a
list, `none` for the dict shapes. -/
def Forms.listItems : Forms → Option (List String)
  | .nn l => some l
  | _ => none

/-- All surface-form values appearing in a forms table (used to bound which
keys a form explosion can touch). -/
def Forms.values : Forms → List String
  | .vb f => f.items.map Prod.snd
  | .nn l => l
  | .adj f => f.items.map Prod.snd

/-- One value of the compiled lexicon: either a base (canonical) entry
(`is_form = false`, with `word`/`paradigm` set) or a generated inflected form
(`is_form = true`, with `base_word`/`form_type` set).  A key absent from the
underlying Python dict is modelled as `none`. -/
structure Entry where
  word : Option String := none
  type : String
  paradigm : Option String := none
  group : Option String := none
  gender : Option String := none
  forms : Option Forms := none
  is_form : Bool := false
  base_word : Option String := none
  form_type : Option String := none
deriving DecidableEq, Repr

/-- The compiled lexicon: a Python dict from surface form to entry, modelled
as an insertion-ordered association list with unique keys. -/
abbrev Lexicon := List (String × Entry)

/-- Python `d.get(k)` / `k in d` on an insertion-ordered dict. -/
def listGet {α : Type} : List (String × α) → String → Option α
  | [], _ => none
  | p :: rest, k => if p.1 = k then some p.2 else listGet rest k

/-- Python `d[k] = v`: replace the value in place when the key is present
(keeping its position), append a new pair otherwise. -/
def listSet {α : Type} : List (String × α) → String → α → List (String × α)
  | [], k, v => [(k, v)]
  | p :: rest, k, v => if p.1 = k then (k, v) :: rest else p :: listSet rest k v

/-- The source's guarded insert `if k not in d: d[k] = v`. -/
def listInsertIfAbsent {α : Type} (d : List (String × α)) (k : String) (v : α) :
    List (String × α) :=
  match listGet d k with
  | some _ => d
  | none => d ++ [(k, v)]

/-- `get_word_type` of `saldo_parser.py`: map a part-of-speech code to the
word-type label via the fixed table, keying on the first three characters for
the multiword codes and on the first two otherwise. -/
def get_word_type (pos : String) : String :=
  let base :=
    if pyStartswith pos "vbm" || pyStartswith pos "nnm" ||
       pyStartswith pos "avm" || pyStartswith pos "abm"
    then pyTake pos 3 else pyTake pos 2
  if base = "nn" then "noun"
  else if base = "vb" then "verb"
  else if base = "av" then "adjective"
  else if base = "pm" then "proper_noun"
  else if base = "ab" then "adverb"
  else if base = "pp" then "preposition"
  else if base = "pn" then "pronoun"
  else if base = "in" then "interjection"
  else if base = "vbm" then "verb"
  else if base = "nnm" then "noun"
  else if base = "avm" then "adjective"
  else if base = "abm" then "adverb"
  else if base = "nl" then "numeral"
  else "unknown"

/-- `get_gender` of `saldo_parser.py`. -/
def get_gender (paradigm : String) : String :=
  if pyContains paradigm "nn_6" then "ett"
  else if pyContains paradigm "nn_5n" then "ett"
  else if pyContains paradigm "_n_" || pyEndswith paradigm "_n" then "ett"
  else "en"

/-- `get_group` of `saldo_parser.py`: the ordered first-match-wins ladder of
substring tests deriving the human-readable group label. -/
def get_group (paradigm pos : String) : String :=
  if pyStartswith pos "nn" then
    if pyContains paradigm "_0" then "Uncountable"
    else if pyContains paradigm "_1" then "Declension 1 (en, -or)"
    else if pyContains paradigm "_2" then "Declension 2 (en, -ar)"
    else if pyContains paradigm "_3" then "Declension 3 (en, -er)"
    else if pyContains paradigm "_5n" then "Declension 4 (ett, -n)"
    else if pyContains paradigm "_6" then "Declension 5 (ett, no change)"
    else if pyContains paradigm "_4" || pyContains paradigm "_5" then "Declension variant"
    else ""
  else if pyStartswith pos "vb" then
    if paradigm = "vb_4m_vara" then "Irregular verb (vara)"
    else if paradigm = "vb_2m_ha" then "Irregular verb (ha)"
    else if pyContains paradigm "4" then "Verb group 4 (strong)"
    else if pyContains paradigm "1" || pyContains paradigm "va" then "Verb group 1 (-ar)"
    else if pyContains paradigm "2" then "Verb group 2 (-er)"
    else if pyContains paradigm "3" then "Verb group 3 (short)"
    else ""
  else ""

/-- The verb section of `generate_forms` in `saldo_parser.py` (the body of its
`if pos.startswith('vb')` branch): two hand-specified irregular paradigms,
then the group-1 and group-2 regular patterns. -/
def generate_verb_forms (word paradigm : String) : Option Forms :=
  if paradigm = "vb_4m_vara" then
    some (.vb ⟨"vara", "är", "var", "varit"⟩)
  else if paradigm = "vb_2m_ha" then
    some (.vb ⟨"ha", "har", "hade", "haft"⟩)
  else if pyContains paradigm "1" || pyContains paradigm "va" then
    if pyEndswith word "a" then
      let stem := pyDropright word 1
      some (.vb ⟨word, word ++ "r", stem ++ "ade", stem ++ "at"⟩)
    else none
  else if pyContains paradigm "2" then
    if pyEndswith word "a" then
      let stem := pyDropright word 1
      if lastCharIn stem ['p', 't', 'k', 's', 'x'] then
        some (.vb ⟨word, stem ++ "er", stem ++ "te", stem ++ "t"⟩)
      else
        some (.vb ⟨word, stem ++ "er", stem ++ "de", stem ++ "t"⟩)
    else none
  else none

/-- The noun section of `generate_forms` in `saldo_parser.py` (the body of its
`elif pos.startswith('nn')` branch): dispatch on paradigm substrings into the
six declension patterns.  One note on fidelity: in the `nn_5n` sub-branch the
source indexes `word[-1]` after the `e`/`a`/`um` ending tests fail; on the
empty word the source would raise `IndexError` there, while this embedding
falls through to the final consonant case (`lastCharIn "" _ = false`). -/
def generate_noun_forms (word paradigm : String) : Option Forms :=
  if pyContains paradigm "_0" then
    some (.nn [word, word ++ "en", "-", "-"])
  else if pyContains paradigm "_1" then
    if pyEndswith word "a" then
      let stem := pyDropright word 1
      some (.nn [word, word ++ "n", stem ++ "or", stem ++ "orna"])
    else
      some (.nn [word, word ++ "n", word ++ "or", word ++ "orna"])
  else if pyContains paradigm "_2" then
    some (.nn [word, word ++ "en", word ++ "ar", word ++ "arna"])
  else if pyContains paradigm "_3" then
    some (.nn [word, word ++ "en", word ++ "er", word ++ "erna"])
  else if pyContains paradigm "nn_5n" then
    if pyEndswith word "e" then
      let stem := pyDropright word 1
      some (.nn [word, stem ++ "et", stem ++ "en", stem ++ "ena"])
    else if pyEndswith word "a" then
      let stem := pyDropright word 1
      some (.nn [word, stem ++ "at", stem ++ "an", stem ++ "ana"])
    else if pyEndswith word "um" then
      let stem := pyDropright word 2
      some (.nn [word, stem ++ "et", stem ++ "a", stem ++ "ana"])
    else if lastCharIn word ['o', 'i', 'u', 'y', 'å', 'ä', 'ö'] then
      some (.nn [word, word ++ "t", word ++ "n", word ++ "na"])
    else
      some (.nn [word, word ++ "et", word ++ "n", word ++ "na"])
  else if pyContains paradigm "_6" then
    some (.nn [word, word ++ "et", word, word ++ "en"])
  else none

/-- The adjective section of `generate_forms` in `saldo_parser.py` (the body
of its `elif pos.startswith('av')` branch): the `stor` irregular plus the
regular suffix rules. -/
def generate_adj_forms (word : String) : Option Forms :=
  if word = "stor" then
    some (.adj ⟨"stor", "stort", "stora", "större", "störst"⟩)
  else
    let ett := if !(pyEndswith word "t" || pyEndswith word "d") then word ++ "t" else word
    let plural := if !pyEndswith word "a" then word ++ "a" else word
    some (.adj ⟨word, ett, plural, word ++ "are", word ++ "ast"⟩)

/-- `generate_forms` of `saldo_parser.py`: the pure form-generation function,
dispatching on the part-of-speech code into the three sections above (all
other parts of speech generate nothing). -/
def generate_forms (word paradigm pos : String) : Option Forms :=
  if pyStartswith pos "vb" then generate_verb_forms word paradigm
  else if pyStartswith pos "nn" then generate_noun_forms word paradigm
  else if pyStartswith pos "av" then generate_adj_forms word
  else none

/-- The fixed declension-position labels of `add_inflected_forms`. -/
def form_names : List String :=
  ["singular indefinite", "singular definite", "plural indefinite", "plural definite"]

/-- Python `form_type.replace('_', ' ')` (single-character replacement). -/
def underscoreToSpace (s : String) : String :=
  ⟨s.data.map (fun c => if c = '_' then ' ' else c)⟩

/-- The verb-branch loop of `add_inflected_forms`: iterate the dict items in
insertion order, inserting a form record for every nonempty value distinct
from the base word that is not yet a key of the dictionary. -/
def addFormsLoopVb (base_word : String) (g : Option String) (fs : Forms) :
    List (String × String) → Lexicon → Lexicon
  | [], d => d
  | (ft, fv) :: rest, d =>
    let d' :=
      if fv ≠ "" ∧ fv ≠ base_word then
        listInsertIfAbsent d fv
          { type := "verb", is_form := true, base_word := some base_word,
            form_type := some ft, group := g, forms := some fs }
      else d
    addFormsLoopVb base_word g fs rest d'

/-- The noun-branch loop of `add_inflected_forms`: iterate the 4 slots with
their position index, skipping empty, `'-'`, and base-word-equal slots.  The
source indexes `form_names[i]` (an `IndexError` for `i ≥ 4`, unreachable
because noun forms lists always have 4 slots); the embedding uses
`form_names.getD i ""`. -/
def addFormsLoopNn (base_word : String) (g gen : Option String) (fs : Forms) :
    List String → Nat → Lexicon → Lexicon
  | [], _, d => d
  | f :: rest, i, d =>
    let d' :=
      if f ≠ "" ∧ f ≠ base_word ∧ f ≠ "-" then
        listInsertIfAbsent d f
          { type := "noun", is_form := true, base_word := some base_word,
            form_type := some (form_names.getD i ""), group := g, gender := gen,
            forms := some fs }
      else d
    addFormsLoopNn base_word g gen fs rest (i + 1) d'

/-- The adjective-branch loop of `add_inflected_forms`. -/
def addFormsLoopAdj (base_word : String) (fs : Forms) :
    List (String × String) → Lexicon → Lexicon
  | [], d => d
  | (ft, fv) :: rest, d =>
    let d' :=
      if fv ≠ "" ∧ fv ≠ base_word then
        listInsertIfAbsent d fv
          { type := "adjective", is_form := true, base_word := some base_word,
            form_type := some (underscoreToSpace ft), group := some "Adjective",
            forms := some fs }
      else d
    addFormsLoopAdj base_word fs rest d'

/-- `add_inflected_forms` of `saldo_parser.py`: explode the generated forms
into the dictionary, dispatching on the entry's word type and on the Python
shape of the forms value (`isinstance(forms, dict)` / `isinstance(forms,
list)`, modelled by `Forms.dictItems` / `Forms.listItems`). -/
def add_inflected_forms (dictionary : Lexicon) (base_word : String)
    (forms : Option Forms) (entry_data : Entry) : Lexicon :=
  match forms with
  | none => dictionary
  | some fs =>
    if entry_data.type = "verb" then
      match fs.dictItems with
      | some kvs => addFormsLoopVb base_word entry_data.group fs kvs dictionary
      | none => dictionary
    else if entry_data.type = "noun" then
      match fs.listItems with
      | some slots => addFormsLoopNn base_word entry_data.group entry_data.gender fs slots 0 dictionary
      | none => dictionary
    else if entry_data.type = "adjective" then
      match fs.dictItems with
      | some kvs => addFormsLoopAdj base_word fs kvs dictionary
      | none => dictionary
    else dictionary

/-- The base (canonical) entry built at the top of `process_entry`. -/
def mkBaseEntry (word : String) (entry_data : RawEntry) : Entry :=
  let pos := entry_data.partOfSpeech
  let paradigm := entry_data.paradigm
  { word := some word
    type := get_word_type pos
    paradigm := some paradigm
    group := some (get_group paradigm pos)
    gender := if pyStartswith pos "nn" then some (get_gender paradigm) else none
    forms := generate_forms word paradigm pos
    is_form := false
    base_word := none
    form_type := none }

/-- `process_entry` of `saldo_parser.py`: unconditionally write the canonical
entry under the base word, then explode its inflected forms. -/
def process_entry (word : String) (entry_data : RawEntry) (dictionary : Lexicon) : Lexicon :=
  let entry := mkBaseEntry word entry_data
  let d1 := listSet dictionary word entry
  add_inflected_forms d1 word entry.forms entry

/-- The part-of-speech priority of `parse_saldo_final`:
`{'vb': 1, 'av': 2, 'nn': 3, 'ab': 4, 'pm': 10}` keyed on the first two
characters, default 99. -/
def posPriority (pos : String) : Nat :=
  let p := pyTake pos 2
  if p = "vb" then 1
  else if p = "av" then 2
  else if p = "nn" then 3
  else if p = "ab" then 4
  else if p = "pm" then 10
  else 99

/-- The sort key used on raw entries. -/
def rawPriority (e : RawEntry) : Nat := posPriority e.partOfSpeech

/-- Stable insertion of an earlier element into the already-sorted later
elements: on equal keys the inserted (earlier) element goes first. -/
def pyInsertLe {α : Type} (key : α → Nat) (x : α) : List α → List α
  | [] => [x]
  | y :: ys => if key x ≤ key y then x :: y :: ys else y :: pyInsertLe key x ys

/-- Python `sorted(l, key=key)`: a stable ascending sort.  Both this insertion
sort and Python's timsort are stable, and a stable ascending sort by a given
key is unique, so the two agree on every input. -/
def pySortedBy {α : Type} (key : α → Nat) : List α → List α
  | [] => []
  | x :: xs => pyInsertLe key x (pySortedBy key xs)

/-- The per-word disambiguation of `parse_saldo_final`: the three named
exceptions (`vara`, `ha`, `stor`) select the first matching candidate via
`next(...)`, everything else takes the head of the priority-sorted candidate
list (`entries_sorted[0]`; `none` for an empty candidate group, on which the
source would raise `IndexError` — unreachable because grouping only creates
nonempty groups). -/
def chooseRaw (word : String) (entries : List RawEntry) : Option RawEntry :=
  if word = "vara" ∧ entries.any (fun e => e.paradigm = "vb_4m_vara") then
    entries.find? (fun e => e.paradigm = "vb_4m_vara")
  else if word = "ha" ∧ entries.any (fun e => e.paradigm = "vb_2m_ha") then
    entries.find? (fun e => e.paradigm = "vb_2m_ha")
  else if word = "stor" ∧ entries.any (fun e => pyStartswith e.partOfSpeech "av") then
    entries.find? (fun e => pyStartswith e.partOfSpeech "av")
  else
    (pySortedBy rawPriority entries).head?

/-- One iteration of the word loop of `parse_saldo_final`: disambiguate the
group and process the chosen candidate. -/
def processWord (word : String) (entries : List RawEntry) (dictionary : Lexicon) : Lexicon :=
  match chooseRaw word entries with
  | some e => process_entry word e dictionary
  | none => dictionary

/-- `parse_saldo_final` of `saldo_parser.py`, starting from the grouped raw
entries (the XML parse and `defaultdict` grouping of Step 1 produce an
insertion-ordered mapping with unique keys; the claims about the compiler
take this grouped collection as input). -/
def parse_saldo_final (all_entries : List (String × List RawEntry)) : Lexicon :=
  all_entries.foldl (fun d p => processWord p.1 p.2 d) []

/-- The in-memory state of `SwedishDictionary.__init__`: the compiled lexicon
and the three hand-authored tables, each a surface-form-keyed mapping. -/
structure SwedishDictionary where
  data : Lexicon
  ambiguous_words : List (String × List Entry)
  ordinals : List (String × String)
  strong_verbs : List (String × Entry)

/-- The value returned by `SwedishDictionary.lookup` on a hit: either the
non-ambiguous wrapper `{'ambiguous': False, 'data': ..., 'word': ...}` or the
ambiguous wrapper `{'ambiguous': True, 'meanings': ..., 'word': ...}`.  A
miss is `none`. -/
inductive LookupResult where
  | nonAmbiguous (data : Entry) (word : String)
  | ambiguous (meanings : List Entry) (word : String)
deriving DecidableEq, Repr

/-- The query normalization of `SwedishDictionary.lookup` and
`get_suggestions`: `word.lower().strip()`. -/
def normalizeQuery (word : String) : String := pyStrip (pyLower word)

/-- `SwedishDictionary.lookup`: normalize, then resolve against the strong-verb
override table, the ambiguous-word table, and the compiled lexicon, in that
order. -/
def lookup (sd : SwedishDictionary) (word : String) : Option LookupResult :=
  let w := normalizeQuery word
  match listGet sd.strong_verbs w with
  | some v => some (.nonAmbiguous v w)
  | none =>
    match listGet sd.ambiguous_words w with
    | some ms => some (.ambiguous ms w)
    | none =>
      match listGet sd.data w with
      | some e => some (.nonAmbiguous e w)
      | none => none

/-- The scan loop of `SwedishDictionary.get_suggestions`: walk the lexicon in
iteration order, keep non-form keys that start with the normalized query, and
break as soon as the collected count reaches `limit` (the source appends and
then tests `len(suggestions) >= limit`). -/
def suggestLoop (pre : String) (limit : Nat) : List (String × Entry) → List String
  | [] => []
  | (w, e) :: rest =>
    if e.is_form = false ∧ pyStartswith w pre = true then
      if limit ≤ 1 then [w]
      else w :: suggestLoop pre (limit - 1) rest
    else suggestLoop pre limit rest

/-- `SwedishDictionary.get_suggestions`.  A non-positive Python `limit`
behaves exactly like `limit = 0` (the first match already satisfies
`len(suggestions) >= limit`), so a `Nat` limit is faithful. -/
def get_suggestions (sd : SwedishDictionary) (pre : String) (limit : Nat) : List String :=
  suggestLoop (normalizeQuery pre) limit sd.data

/-- The outcome of loading one backing table file in
`SwedishDictionary.__init__`: loaded, absent (`FileNotFoundError`), or
unparsable (`json.JSONDecodeError`). -/
inductive LoadResult (α : Type) where
  | ok (table : α)
  | fileMissing
  | malformed

/-- The degrade-to-empty policy of every `try/except` block in
`SwedishDictionary.__init__`: a missing or malformed file yields the empty
table for that tier. -/
def loadOrEmpty {α : Type} : LoadResult (List (String × α)) → List (String × α)
  | .ok t => t
  | .fileMissing => []
  | .malformed => []

/-- `SwedishDictionary.__init__` after path resolution: build the service
state from the four table-file load outcomes. -/
def initService (rdata : LoadResult Lexicon)
    (ramb : LoadResult (List (String × List Entry)))
    (rord : LoadResult (List (String × String)))
    (rstrong : LoadResult (List (String × Entry))) : SwedishDictionary :=
  { data := loadOrEmpty rdata
    ambiguous_words := loadOrEmpty ramb
    ordinals := loadOrEmpty rord
    strong_verbs := loadOrEmpty rstrong }

/-- A service whose lexicon is a freshly compiled dictionary and whose
hand-authored tables are empty (the configuration the compiler scenarios are
stated against). -/
def serviceOf (d : Lexicon) : SwedishDictionary :=
  { data := d, ambiguous_words := [], ordinals := [], strong_verbs := [] }

/-- Spec-side description of stable priority selection: the first element of
the list attaining the minimal key (written from the claim's words, to be
compared with the source's sort-then-take-head). -/
def firstMinBy {α : Type} (key : α → Nat) : List α → Option α
  | [] => none
  | x :: xs =>
    match firstMinBy key xs with
    | none => some x
    | some y => if key x ≤ key y then some x else some y

/-- All dictionary keys one word-loop iteration may write: the base word
itself plus every generated form value. -/
def wordWrites (w : String) (es : List RawEntry) : List String :=
  match chooseRaw w es with
  | none => [w]
  | some r =>
    w :: (match generate_forms w r.paradigm r.partOfSpeech with
          | none => []
          | some fs => fs.values)

/-- The compiler's word loop as a fold from an arbitrary intermediate state. -/
def parseFold (L : List (String × List RawEntry)) (d : Lexicon) : Lexicon :=
  L.foldl (fun d p => processWord p.1 p.2 d) d

/-! The dangling-reference invariant behind claim C4: every form entry's
back-reference names a key of the same dictionary holding a non-form entry. -/

def BaseRefsValid (d : Lexicon) : Prop :=
  ∀ v e, listGet d v = some e → e.is_form = true →
    ∃ b c, e.base_word = some b ∧ listGet d b = some c ∧ c.is_form = false

/-- The shape of a successfully written noun form record: the dictionary holds,
under surface form `v`, a form entry of type noun pointing back at base word
`b`. -/
def nounFormOf (d : Lexicon) (v b : String) : Prop :=
  ∃ e, listGet d v = some e ∧ e.is_form = true ∧ e.base_word = some b ∧ e.type = "noun"

/-- A concrete raw noun record used in the concrete instantiations below:
part of speech `nn`, paradigm `nn_6n_hus` (declension 5, "ett, no change"). -/
def husRawEntry : RawEntry := ⟨"nn", "nn_6n_hus"⟩

/-- A one-word grouped input: just the noun `hus`. -/
def husInput : List (String × List RawEntry) := [("hus", [husRawEntry])]

/-- A two-word grouped input: the noun `hus` followed by the base word
`husen`, whose surface form collides with the plural definite of `hus`. -/
def husHusenInput : List (String × List RawEntry) :=
  [("hus", [husRawEntry]), ("husen", [husRawEntry])]

/-- The form entry the compiler writes under `huset` when processing
`husInput`. -/
def husetFormEntry : Entry :=
  { word := none, type := "noun", paradigm := none,
    group := some "Declension 5 (ett, no change)", gender := some "ett",
    forms := some (.nn ["hus", "huset", "hus", "husen"]), is_form := true,
    base_word := some "hus", form_type := some "singular definite" }

/-- A service whose lexicon holds the single base word `bil`. -/
def bilService : SwedishDictionary :=
  ⟨[("bil", { type := "noun" })], [], [], []⟩

/-! Basic properties of the ordered-association-list dictionary operations. -/

theorem listGet_append {α : Type} (d l : List (String × α)) (k : String) :
    listGet (d ++ l) k = ((listGet d k).or (listGet l k)) := by
  induction d with
  | nil => simp [listGet]
  | cons p rest ih =>
    by_cases h : p.1 = k
    · simp [listGet, h]
    · simp [listGet, h, ih]

theorem listGet_listSet_self {α : Type} (d : List (String × α)) (k : String) (v : α) :
    listGet (listSet d k v) k = some v := by
  induction d with
  | nil => simp [listSet, listGet]
  | cons p rest ih =>
    by_cases h : p.1 = k
    · simp [listSet, h, listGet]
    · simp [listSet, h, listGet, ih]

theorem listGet_listSet_other {α : Type} (d : List (String × α)) (k k' : String) (v : α)
    (h : k' ≠ k) : listGet (listSet d k v) k' = listGet d k' := by
  have hkk : ¬ (k = k') := fun hh => h hh.symm
  induction d with
  | nil => simp [listSet, listGet, hkk]
  | cons p rest ih =>
    by_cases hp : p.1 = k
    · have hp' : ¬ (p.1 = k') := by rw [hp]; exact hkk
      simp only [listSet, if_pos hp, listGet, if_neg hkk, if_neg hp']
    · simp only [listSet, if_neg hp, listGet]
      by_cases hq : p.1 = k'
      · simp only [if_pos hq]
      · simp only [if_neg hq, ih]

theorem listGet_insertIfAbsent_present {α : Type} (d : List (String × α)) (k k' : String)
    (v e : α) (h : listGet d k = some e) :
    listGet (listInsertIfAbsent d k' v) k = some e := by
  unfold listInsertIfAbsent
  cases hq : listGet d k' with
  | some x => exact h
  | none => rw [listGet_append, h]; rfl

theorem listGet_insertIfAbsent_absent {α : Type} (d : List (String × α)) (k : String)
    (v : α) (h : listGet d k = none) :
    listGet (listInsertIfAbsent d k v) k = some v := by
  unfold listInsertIfAbsent
  rw [h, listGet_append, h]
  simp [listGet]

theorem listGet_insertIfAbsent_other {α : Type} (d : List (String × α)) (k k' : String)
    (v : α) (h : k ≠ k') :
    listGet (listInsertIfAbsent d k' v) k = listGet d k := by
  have hkk : ¬ (k' = k) := fun hh => h hh.symm
  unfold listInsertIfAbsent
  cases hq : listGet d k' with
  | some x => rfl
  | none =>
    rw [listGet_append]
    cases hk : listGet d k with
    | some x => rfl
    | none => simp [listGet, hkk]

theorem listGet_insertIfAbsent_inv {α : Type} (d : List (String × α)) (k k' : String)
    (v e : α) (h : listGet (listInsertIfAbsent d k' v) k = some e) :
    listGet d k = some e ∨ (k = k' ∧ e = v ∧ listGet d k = none) := by
  by_cases hk : k = k'
  · subst hk
    cases hq : listGet d k with
    | some x =>
      have h2 := listGet_insertIfAbsent_present d k k v x hq
      rw [h2] at h
      exact Or.inl h
    | none =>
      have h2 := listGet_insertIfAbsent_absent d k v hq
      rw [h2] at h
      exact Or.inr ⟨rfl, (Option.some.inj h).symm, rfl⟩
  · rw [listGet_insertIfAbsent_other d k k' v hk] at h
    exact Or.inl h

/-! Properties of the three form-explosion loops: they never change a key that
is already present, they only touch keys among the iterated form values, and
every entry they create is a form record pointing at the current base word. -/

theorem addFormsLoopVb_preserves (b : String) (g : Option String) (fs : Forms)
    (k : String) (e : Entry) :
    ∀ (kvs : List (String × String)) (d : Lexicon), listGet d k = some e →
      listGet (addFormsLoopVb b g fs kvs d) k = some e := by
  intro kvs
  induction kvs with
  | nil => intro d h; exact h
  | cons p rest ih =>
    intro d h
    obtain ⟨ft, fv⟩ := p
    simp only [addFormsLoopVb]
    apply ih
    split
    · exact listGet_insertIfAbsent_present _ _ _ _ _ h
    · exact h

theorem addFormsLoopNn_preserves (b : String) (g gen : Option String) (fs : Forms)
    (k : String) (e : Entry) :
    ∀ (slots : List String) (i : Nat) (d : Lexicon), listGet d k = some e →
      listGet (addFormsLoopNn b g gen fs slots i d) k = some e := by
  intro slots
  induction slots with
  | nil => intro i d h; exact h
  | cons f rest ih =>
    intro i d h
    simp only [addFormsLoopNn]
    apply ih
    split
    · exact listGet_insertIfAbsent_present _ _ _ _ _ h
    · exact h

theorem addFormsLoopAdj_preserves (b : String) (fs : Forms) (k : String) (e : Entry) :
    ∀ (kvs : List (String × String)) (d : Lexicon), listGet d k = some e →
      listGet (addFormsLoopAdj b fs kvs d) k = some e := by
  intro kvs
  induction kvs with
  | nil => intro d h; exact h
  | cons p rest ih =>
    intro d h
    obtain ⟨ft, fv⟩ := p
    simp only [addFormsLoopAdj]
    apply ih
    split
    · exact listGet_insertIfAbsent_present _ _ _ _ _ h
    · exact h

theorem addFormsLoopVb_no_write (b : String) (g : Option String) (fs : Forms) (k : String) :
    ∀ (kvs : List (String × String)) (d : Lexicon), k ∉ kvs.map Prod.snd →
      listGet (addFormsLoopVb b g fs kvs d) k = listGet d k := by
  intro kvs
  induction kvs with
  | nil => intro d _; rfl
  | cons p rest ih =>
    intro d hk
    obtain ⟨ft, fv⟩ := p
    simp only [List.map_cons, List.mem_cons, not_or] at hk
    simp only [addFormsLoopVb]
    rw [ih _ hk.2]
    split
    · exact listGet_insertIfAbsent_other _ _ _ _ hk.1
    · rfl

theorem addFormsLoopNn_no_write (b : String) (g gen : Option String) (fs : Forms) (k : String) :
    ∀ (slots : List String) (i : Nat) (d : Lexicon), k ∉ slots →
      listGet (addFormsLoopNn b g gen fs slots i d) k = listGet d k := by
  intro slots
  induction slots with
  | nil => intro i d _; rfl
  | cons f rest ih =>
    intro i d hk
    simp only [List.mem_cons, not_or] at hk
    simp only [addFormsLoopNn]
    rw [ih _ _ hk.2]
    split
    · exact listGet_insertIfAbsent_other _ _ _ _ hk.1
    · rfl

theorem addFormsLoopAdj_no_write (b : String) (fs : Forms) (k : String) :
    ∀ (kvs : List (String × String)) (d : Lexicon), k ∉ kvs.map Prod.snd →
      listGet (addFormsLoopAdj b fs kvs d) k = listGet d k := by
  intro kvs
  induction kvs with
  | nil => intro d _; rfl
  | cons p rest ih =>
    intro d hk
    obtain ⟨ft, fv⟩ := p
    simp only [List.map_cons, List.mem_cons, not_or] at hk
    simp only [addFormsLoopAdj]
    rw [ih _ hk.2]
    split
    · exact listGet_insertIfAbsent_other _ _ _ _ hk.1
    · rfl

theorem addFormsLoopVb_inv (b : String) (g : Option String) (fs : Forms) (k : String)
    (e : Entry) :
    ∀ (kvs : List (String × String)) (d : Lexicon),
      listGet (addFormsLoopVb b g fs kvs d) k = some e →
      listGet d k = some e ∨ (e.is_form = true ∧ e.base_word = some b) := by
  intro kvs
  induction kvs with
  | nil => intro d h; exact Or.inl h
  | cons p rest ih =>
    intro d h
    obtain ⟨ft, fv⟩ := p
    simp only [addFormsLoopVb] at h
    rcases ih _ h with h1 | h1
    · revert h1
      split
      · intro h1
        rcases listGet_insertIfAbsent_inv _ _ _ _ _ h1 with h2 | ⟨_, he, _⟩
        · exact Or.inl h2
        · subst he; exact Or.inr ⟨rfl, rfl⟩
      · intro h1; exact Or.inl h1
    · exact Or.inr h1

theorem addFormsLoopNn_inv (b : String) (g gen : Option String) (fs : Forms) (k : String)
    (e : Entry) :
    ∀ (slots : List String) (i : Nat) (d : Lexicon),
      listGet (addFormsLoopNn b g gen fs slots i d) k = some e →
      listGet d k = some e ∨ (e.is_form = true ∧ e.base_word = some b) := by
  intro slots
  induction slots with
  | nil => intro i d h; exact Or.inl h
  | cons f rest ih =>
    intro i d h
    simp only [addFormsLoopNn] at h
    rcases ih _ _ h with h1 | h1
    · revert h1
      split
      · intro h1
        rcases listGet_insertIfAbsent_inv _ _ _ _ _ h1 with h2 | ⟨_, he, _⟩
        · exact Or.inl h2
        · subst he; exact Or.inr ⟨rfl, rfl⟩
      · intro h1; exact Or.inl h1
    · exact Or.inr h1

theorem addFormsLoopAdj_inv (b : String) (fs : Forms) (k : String) (e : Entry) :
    ∀ (kvs : List (String × String)) (d : Lexicon),
      listGet (addFormsLoopAdj b fs kvs d) k = some e →
      listGet d k = some e ∨ (e.is_form = true ∧ e.base_word = some b) := by
  intro kvs
  induction kvs with
  | nil => intro d h; exact Or.inl h
  | cons p rest ih =>
    intro d h
    obtain ⟨ft, fv⟩ := p
    simp only [addFormsLoopAdj] at h
    rcases ih _ h with h1 | h1
    · revert h1
      split
      · intro h1
        rcases listGet_insertIfAbsent_inv _ _ _ _ _ h1 with h2 | ⟨_, he, _⟩
        · exact Or.inl h2
        · subst he; exact Or.inr ⟨rfl, rfl⟩
      · intro h1; exact Or.inl h1
    · exact Or.inr h1

/-! Properties of `add_inflected_forms`, `process_entry`, `processWord` and the
whole compiler fold. -/

theorem add_inflected_forms_vb (d : Lexicon) (b : String) (ent : Entry) (f : VerbForms) :
    add_inflected_forms d b (some (.vb f)) ent =
      if ent.type = "verb" then addFormsLoopVb b ent.group (.vb f) f.items d
      else if ent.type = "noun" then d
      else if ent.type = "adjective" then addFormsLoopAdj b (.vb f) f.items d
      else d := rfl

theorem add_inflected_forms_nn (d : Lexicon) (b : String) (ent : Entry) (l : List String) :
    add_inflected_forms d b (some (.nn l)) ent =
      if ent.type = "verb" then d
      else if ent.type = "noun" then addFormsLoopNn b ent.group ent.gender (.nn l) l 0 d
      else if ent.type = "adjective" then d
      else d := rfl

theorem add_inflected_forms_adj (d : Lexicon) (b : String) (ent : Entry) (f : AdjForms) :
    add_inflected_forms d b (some (.adj f)) ent =
      if ent.type = "verb" then addFormsLoopVb b ent.group (.adj f) f.items d
      else if ent.type = "noun" then d
      else if ent.type = "adjective" then addFormsLoopAdj b (.adj f) f.items d
      else d := rfl

theorem add_inflected_forms_preserves_entry (d : Lexicon) (b : String)
    (fo : Option Forms) (ent : Entry) (k : String) (e : Entry)
    (h : listGet d k = some e) :
    listGet (add_inflected_forms d b fo ent) k = some e := by
  cases fo with
  | none => exact h
  | some fs =>
    cases fs with
    | vb f =>
      rw [add_inflected_forms_vb]
      split
      · exact addFormsLoopVb_preserves _ _ _ _ _ _ _ h
      · split
        · exact h
        · split
          · exact addFormsLoopAdj_preserves _ _ _ _ _ _ h
          · exact h
    | nn l =>
      rw [add_inflected_forms_nn]
      split
      · exact h
      · split
        · exact addFormsLoopNn_preserves _ _ _ _ _ _ _ _ _ h
        · split
          · exact h
          · exact h
    | adj f =>
      rw [add_inflected_forms_adj]
      split
      · exact addFormsLoopVb_preserves _ _ _ _ _ _ _ h
      · split
        · exact h
        · split
          · exact addFormsLoopAdj_preserves _ _ _ _ _ _ h
          · exact h

theorem add_inflected_forms_no_write (d : Lexicon) (b : String)
    (fo : Option Forms) (ent : Entry) (k : String)
    (h : ∀ fs, fo = some fs → k ∉ fs.values) :
    listGet (add_inflected_forms d b fo ent) k = listGet d k := by
  cases fo with
  | none => rfl
  | some fs =>
    have hk := h fs rfl
    cases fs with
    | vb f =>
      rw [add_inflected_forms_vb]
      split
      · exact addFormsLoopVb_no_write _ _ _ _ _ _ hk
      · split
        · rfl
        · split
          · exact addFormsLoopAdj_no_write _ _ _ _ _ hk
          · rfl
    | nn l =>
      rw [add_inflected_forms_nn]
      split
      · rfl
      · split
        · exact addFormsLoopNn_no_write _ _ _ _ _ _ _ _ hk
        · split
          · rfl
          · rfl
    | adj f =>
      rw [add_inflected_forms_adj]
      split
      · exact addFormsLoopVb_no_write _ _ _ _ _ _ hk
      · split
        · rfl
        · split
          · exact addFormsLoopAdj_no_write _ _ _ _ _ hk
          · rfl

theorem add_inflected_forms_inv (d : Lexicon) (b : String)
    (fo : Option Forms) (ent : Entry) (k : String) (e : Entry)
    (h : listGet (add_inflected_forms d b fo ent) k = some e) :
    listGet d k = some e ∨ (e.is_form = true ∧ e.base_word = some b) := by
  cases fo with
  | none => exact Or.inl h
  | some fs =>
    cases fs with
    | vb f =>
      rw [add_inflected_forms_vb] at h
      revert h
      split
      · exact fun h => addFormsLoopVb_inv _ _ _ _ _ _ _ h
      · split
        · exact fun h => Or.inl h
        · split
          · exact fun h => addFormsLoopAdj_inv _ _ _ _ _ _ h
          · exact fun h => Or.inl h
    | nn l =>
      rw [add_inflected_forms_nn] at h
      revert h
      split
      · exact fun h => Or.inl h
      · split
        · exact fun h => addFormsLoopNn_inv _ _ _ _ _ _ _ _ _ h
        · split
          · exact fun h => Or.inl h
          · exact fun h => Or.inl h
    | adj f =>
      rw [add_inflected_forms_adj] at h
      revert h
      split
      · exact fun h => addFormsLoopVb_inv _ _ _ _ _ _ _ h
      · split
        · exact fun h => Or.inl h
        · split
          · exact fun h => addFormsLoopAdj_inv _ _ _ _ _ _ h
          · exact fun h => Or.inl h

theorem processWord_preserves (w : String) (es : List RawEntry) (d : Lexicon)
    (k : String) (e : Entry) (hk : k ≠ w) (h : listGet d k = some e) :
    listGet (processWord w es d) k = some e := by
  unfold processWord
  cases chooseRaw w es with
  | none => exact h
  | some r =>
    unfold process_entry
    apply add_inflected_forms_preserves_entry
    rw [listGet_listSet_other _ _ _ _ hk]
    exact h

theorem processWord_self (w : String) (es : List RawEntry) (d : Lexicon)
    (r : RawEntry) (hc : chooseRaw w es = some r) :
    listGet (processWord w es d) w = some (mkBaseEntry w r) := by
  unfold processWord
  rw [hc]
  unfold process_entry
  apply add_inflected_forms_preserves_entry
  exact listGet_listSet_self _ _ _

theorem processWord_no_write (w : String) (es : List RawEntry) (d : Lexicon)
    (k : String) (hk : k ∉ wordWrites w es) :
    listGet (processWord w es d) k = listGet d k := by
  unfold processWord
  unfold wordWrites at hk
  cases hc : chooseRaw w es with
  | none => rfl
  | some r =>
    rw [hc] at hk
    simp only [List.mem_cons, not_or] at hk
    unfold process_entry
    rw [add_inflected_forms_no_write]
    · exact listGet_listSet_other _ _ _ _ hk.1
    · intro fs hfs
      have h2 := hk.2
      rw [show (mkBaseEntry w r).forms = generate_forms w r.paradigm r.partOfSpeech from rfl] at hfs
      rw [hfs] at h2
      exact h2

theorem parseFold_nil (d : Lexicon) : parseFold [] d = d := rfl

theorem parseFold_cons (p : String × List RawEntry) (rest : List (String × List RawEntry))
    (d : Lexicon) : parseFold (p :: rest) d = parseFold rest (processWord p.1 p.2 d) := rfl

theorem parse_saldo_final_eq_parseFold (L : List (String × List RawEntry)) :
    parse_saldo_final L = parseFold L [] := rfl

theorem parseFold_append (L1 L2 : List (String × List RawEntry)) (d : Lexicon) :
    parseFold (L1 ++ L2) d = parseFold L2 (parseFold L1 d) :=
  List.foldl_append _ _ _ _

theorem parseFold_preserves (L : List (String × List RawEntry)) (d : Lexicon)
    (k : String) (e : Entry) (hk : ∀ p ∈ L, k ≠ p.1) (h : listGet d k = some e) :
    listGet (parseFold L d) k = some e := by
  induction L generalizing d with
  | nil => exact h
  | cons p rest ih =>
    rw [parseFold_cons]
    exact ih _ (fun q hq => hk q (List.mem_cons_of_mem _ hq))
      (processWord_preserves _ _ _ _ _ (hk p (List.mem_cons_self _ _)) h)

theorem parseFold_no_write (L : List (String × List RawEntry)) (d : Lexicon)
    (k : String) (hk : ∀ p ∈ L, k ∉ wordWrites p.1 p.2) :
    listGet (parseFold L d) k = listGet d k := by
  induction L generalizing d with
  | nil => rfl
  | cons p rest ih =>
    rw [parseFold_cons]
    rw [ih _ (fun q hq => hk q (List.mem_cons_of_mem _ hq))]
    exact processWord_no_write _ _ _ _ (hk p (List.mem_cons_self _ _))

theorem process_entry_def (w : String) (r : RawEntry) (d : Lexicon) :
    process_entry w r d =
      add_inflected_forms (listSet d w (mkBaseEntry w r)) w
        (mkBaseEntry w r).forms (mkBaseEntry w r) := rfl

theorem mkBaseEntry_is_form (w : String) (r : RawEntry) :
    (mkBaseEntry w r).is_form = false := rfl

theorem processWord_baseRefsValid (w : String) (es : List RawEntry) (d : Lexicon)
    (hi : BaseRefsValid d) : BaseRefsValid (processWord w es d) := by
  unfold processWord
  cases hc : chooseRaw w es with
  | none => exact hi
  | some r =>
    show BaseRefsValid (process_entry w r d)
    rw [process_entry_def]
    intro v e hv hform
    have hbase1 : listGet (listSet d w (mkBaseEntry w r)) w = some (mkBaseEntry w r) :=
      listGet_listSet_self _ _ _
    have hbase2 : listGet (add_inflected_forms (listSet d w (mkBaseEntry w r)) w
        (mkBaseEntry w r).forms (mkBaseEntry w r)) w = some (mkBaseEntry w r) :=
      add_inflected_forms_preserves_entry _ _ _ _ _ _ hbase1
    rcases add_inflected_forms_inv _ _ _ _ _ _ hv with h1 | ⟨hf, hb⟩
    · by_cases hvw : v = w
      · rw [hvw] at h1
        have he : mkBaseEntry w r = e := Option.some.inj (hbase1.symm.trans h1)
        rw [← he, mkBaseEntry_is_form] at hform
        exact absurd hform Bool.false_ne_true
      · rw [listGet_listSet_other _ _ _ _ hvw] at h1
        obtain ⟨b, c, hbw, hcb, hcf⟩ := hi v e h1 hform
        by_cases hbweq : b = w
        · exact ⟨w, mkBaseEntry w r, hbweq ▸ hbw, hbase2, rfl⟩
        · have hc1 : listGet (listSet d w (mkBaseEntry w r)) b = some c := by
            rw [listGet_listSet_other _ _ _ _ hbweq]; exact hcb
          exact ⟨b, c, hbw, add_inflected_forms_preserves_entry _ _ _ _ _ _ hc1, hcf⟩
    · exact ⟨w, mkBaseEntry w r, hb, hbase2, rfl⟩

theorem parseFold_baseRefsValid (L : List (String × List RawEntry)) (d : Lexicon)
    (hi : BaseRefsValid d) : BaseRefsValid (parseFold L d) := by
  induction L generalizing d with
  | nil => exact hi
  | cons p rest ih =>
    rw [parseFold_cons]
    exact ih _ (processWord_baseRefsValid _ _ _ hi)

theorem baseRefsValid_nil : BaseRefsValid [] := by
  intro v e hv
  cases hv

/-! Existence of a disambiguation choice for a nonempty candidate group, and
the stable-sort head characterization behind claim C5. -/

theorem pyInsertLe_head {α : Type} (key : α → Nat) (x : α) (s : List α) :
    (pyInsertLe key x s).head? =
      some (match s.head? with
            | none => x
            | some y => if key x ≤ key y then x else y) := by
  cases s with
  | nil => rfl
  | cons y ys =>
    by_cases h : key x ≤ key y <;> simp [pyInsertLe, h]

theorem firstMinBy_cons {α : Type} (key : α → Nat) (x : α) (xs : List α) :
    firstMinBy key (x :: xs) =
      match firstMinBy key xs with
      | none => some x
      | some y => if key x ≤ key y then some x else some y := rfl

theorem pySortedBy_head {α : Type} (key : α → Nat) (l : List α) :
    (pySortedBy key l).head? = firstMinBy key l := by
  induction l with
  | nil => rfl
  | cons x xs ih =>
    show (pyInsertLe key x (pySortedBy key xs)).head? = firstMinBy key (x :: xs)
    rw [pyInsertLe_head, ih, firstMinBy_cons]
    cases hf : firstMinBy key xs with
    | none => rfl
    | some y =>
      by_cases h : key x ≤ key y <;> simp [h]

theorem firstMinBy_eq_none {α : Type} (key : α → Nat) (l : List α) :
    firstMinBy key l = none ↔ l = [] := by
  cases l with
  | nil => simp [firstMinBy]
  | cons x xs =>
    simp only [firstMinBy]
    cases firstMinBy key xs with
    | none => simp
    | some y =>
      by_cases h : key x ≤ key y <;> simp [h]

theorem firstMinBy_spec {α : Type} (key : α → Nat) :
    ∀ (l : List α) (m : α), firstMinBy key l = some m →
      ∃ (i : Nat) (hi : i < l.length), l.get ⟨i, hi⟩ = m ∧
        (∀ x ∈ l, key m ≤ key x) ∧
        (∀ j (hj : j < l.length), j < i → key m < key (l.get ⟨j, hj⟩)) := by
  intro l
  induction l with
  | nil => intro m h; simp [firstMinBy] at h
  | cons a t ih =>
    intro m h
    rw [firstMinBy_cons] at h
    cases hft : firstMinBy key t with
    | none =>
      rw [hft] at h
      have h' : some a = some m := h
      have he : a = m := Option.some.inj h'
      subst he
      have ht : t = [] := (firstMinBy_eq_none key t).mp hft
      subst ht
      refine ⟨0, by simp, rfl, ?_, ?_⟩
      · intro x hx
        rcases List.mem_singleton.mp hx with rfl
        exact le_refl _
      · intro j hj hj0
        exact absurd hj0 (Nat.not_lt_zero j)
    | some y =>
      rw [hft] at h
      have h' : (if key a ≤ key y then some a else some y) = some m := h
      by_cases hk : key a ≤ key y
      · rw [if_pos hk] at h'
        have he : a = m := Option.some.inj h'
        subst he
        obtain ⟨i', hi', hget, hmin, _⟩ := ih y hft
        refine ⟨0, by simp, List.get_cons_zero, ?_, ?_⟩
        · intro x hx
          rcases List.mem_cons.mp hx with rfl | hx
          · exact le_refl _
          · exact le_trans hk (hmin x hx)
        · intro j hj hj0
          exact absurd hj0 (Nat.not_lt_zero j)
      · rw [if_neg hk] at h'
        have he : y = m := Option.some.inj h'
        subst he
        obtain ⟨i', hi', hget, hmin, hstrict⟩ := ih y hft
        have hya : key y < key a := Nat.lt_of_not_le hk
        refine ⟨i' + 1, by simpa using Nat.succ_lt_succ hi', ?_, ?_, ?_⟩
        · rw [List.get_cons_succ]
          exact hget
        · intro x hx
          rcases List.mem_cons.mp hx with rfl | hx
          · exact le_of_lt hya
          · exact hmin x hx
        · intro j hj hj0
          cases j with
          | zero => exact hya
          | succ j' =>
            rw [List.get_cons_succ]
            exact hstrict j' (by omega) (by omega)

theorem chooseRaw_isSome (w : String) (es : List RawEntry) (hne : es ≠ []) :
    ∃ r, chooseRaw w es = some r := by
  unfold chooseRaw
  split
  · rename_i hcond
    have := hcond.2
    rw [List.any_eq_true] at this
    obtain ⟨x, hx, hpx⟩ := this
    have : (es.find? (fun e => e.paradigm = "vb_4m_vara")).isSome = true :=
      List.find?_isSome.mpr ⟨x, hx, hpx⟩
    exact Option.isSome_iff_exists.mp this
  · split
    · rename_i hcond
      have := hcond.2
      rw [List.any_eq_true] at this
      obtain ⟨x, hx, hpx⟩ := this
      have : (es.find? (fun e => e.paradigm = "vb_2m_ha")).isSome = true :=
        List.find?_isSome.mpr ⟨x, hx, hpx⟩
      exact Option.isSome_iff_exists.mp this
    · split
      · rename_i hcond
        have := hcond.2
        rw [List.any_eq_true] at this
        obtain ⟨x, hx, hpx⟩ := this
        have : (es.find? (fun e => pyStartswith e.partOfSpeech "av")).isSome = true :=
          List.find?_isSome.mpr ⟨x, hx, hpx⟩
        exact Option.isSome_iff_exists.mp this
      · cases es with
        | nil => exact absurd rfl hne
        | cons x xs =>
          rw [show pySortedBy rawPriority (x :: xs) = pyInsertLe rawPriority x (pySortedBy rawPriority xs) from rfl]
          rw [pyInsertLe_head]
          exact ⟨_, rfl⟩

/-! Shape facts about the generated forms: verb and adjective generation only
produce dict-shaped tables, and every noun slot distinct from the base word
is either the no-form marker or nonempty. -/

theorem append_ne_empty (s t : String) (h : t ≠ "") : s ++ t ≠ "" := by
  intro he
  apply h
  have hd := congrArg String.data he
  rw [String.data_append] at hd
  exact String.ext (List.append_eq_nil.mp hd).2

theorem generate_verb_forms_shape (w p : String) (f : Forms)
    (h : generate_verb_forms w p = some f) : ∃ vf, f = Forms.vb vf := by
  unfold generate_verb_forms at h
  repeat' split at h
  all_goals (try simp at h)
  all_goals (try (split at h <;> simp at h))
  all_goals exact ⟨_, h.symm⟩

theorem generate_adj_forms_shape (w : String) (f : Forms)
    (h : generate_adj_forms w = some f) : ∃ af, f = Forms.adj af := by
  unfold generate_adj_forms at h
  repeat' split at h
  all_goals (try simp at h)
  all_goals exact ⟨_, h.symm⟩

theorem generate_noun_forms_slots (w p : String) (l : List String)
    (h : generate_noun_forms w p = some (.nn l)) : ∀ v ∈ l, v = w ∨ v = "-" ∨ v ≠ "" := by
  unfold generate_noun_forms at h
  repeat' split at h
  all_goals (try simp at h)
  all_goals subst h
  all_goals (intro v hv; simp only [List.mem_cons, List.not_mem_nil, or_false] at hv)
  all_goals rcases hv with rfl | rfl | rfl | rfl
  all_goals first
    | exact Or.inl rfl
    | exact Or.inr (Or.inl rfl)
    | exact Or.inr (Or.inr (append_ne_empty _ _ (by decide)))

theorem generate_forms_nn_slots (w p pos : String) (l : List String)
    (h : generate_forms w p pos = some (.nn l)) : ∀ v ∈ l, v = w ∨ v = "-" ∨ v ≠ "" := by
  unfold generate_forms at h
  split at h
  · obtain ⟨vf, hvf⟩ := generate_verb_forms_shape _ _ _ h
    cases hvf
  · split at h
    · exact generate_noun_forms_slots _ _ _ h
    · split at h
      · obtain ⟨af, haf⟩ := generate_adj_forms_shape _ _ h
        cases haf
      · cases h

/-! The noun form-explosion loop writes the expected form record at every slot
that is new, distinct from the base word, and not the no-form marker. -/

theorem addFormsLoopNn_preserves_formOf (b : String) (g gen : Option String) (fs : Forms)
    (v : String) (slots : List String) (i : Nat) (d : Lexicon)
    (h : nounFormOf d v b) :
    nounFormOf (addFormsLoopNn b g gen fs slots i d) v b := by
  obtain ⟨e, he, h1, h2, h3⟩ := h
  exact ⟨e, addFormsLoopNn_preserves _ _ _ _ _ _ _ _ _ he, h1, h2, h3⟩

theorem addFormsLoopNn_writes (b : String) (g gen : Option String) (fs : Forms) (v : String)
    (hve : v ≠ "") (hvb : v ≠ b) (hvd : v ≠ "-") :
    ∀ (slots : List String) (i : Nat) (d : Lexicon), v ∈ slots →
      (listGet d v = none ∨ nounFormOf d v b) →
      nounFormOf (addFormsLoopNn b g gen fs slots i d) v b := by
  intro slots
  induction slots with
  | nil => intro i d hv _; exact absurd hv (List.not_mem_nil v)
  | cons f rest ih =>
    intro i d hv hinv
    simp only [addFormsLoopNn]
    by_cases hfv : f = v
    · rw [hfv, if_pos ⟨hve, hvb, hvd⟩]
      apply addFormsLoopNn_preserves_formOf
      rcases hinv with hnone | ⟨e, he, h1, h2, h3⟩
      · exact ⟨_, listGet_insertIfAbsent_absent _ _ _ hnone, rfl, rfl, rfl⟩
      · exact ⟨e, listGet_insertIfAbsent_present _ _ _ _ _ he, h1, h2, h3⟩
    · have hvf : v ≠ f := fun hh => hfv hh.symm
      have hv' : v ∈ rest := by
        rcases List.mem_cons.mp hv with h | h
        · exact absurd h hvf
        · exact h
      apply ih (i + 1) _ hv'
      split
      · rcases hinv with hnone | ⟨e, he, h1, h2, h3⟩
        · exact Or.inl (by rw [listGet_insertIfAbsent_other _ _ _ _ hvf]; exact hnone)
        · exact Or.inr ⟨e, listGet_insertIfAbsent_present _ _ _ _ _ he, h1, h2, h3⟩
      · exact hinv

theorem add_inflected_forms_writes_noun (d : Lexicon) (b : String) (ent : Entry)
    (l : List String) (v : String) (hty : ent.type = "noun")
    (hv : v ∈ l) (hve : v ≠ "") (hvb : v ≠ b) (hvd : v ≠ "-")
    (hnone : listGet d v = none) :
    nounFormOf (add_inflected_forms d b (some (.nn l)) ent) v b := by
  rw [add_inflected_forms_nn]
  have h1 : ¬ ent.type = "verb" := by rw [hty]; decide
  rw [if_neg h1, if_pos hty]
  exact addFormsLoopNn_writes _ _ _ _ _ hve hvb hvd l 0 d hv (Or.inl hnone)

theorem processWord_writes_noun (w : String) (es : List RawEntry) (d : Lexicon)
    (r : RawEntry) (l : List String) (v : String)
    (hc : chooseRaw w es = some r)
    (hty : (mkBaseEntry w r).type = "noun")
    (hf : (mkBaseEntry w r).forms = some (.nn l))
    (hv : v ∈ l) (hve : v ≠ "") (hvw : v ≠ w) (hvd : v ≠ "-")
    (hnone : listGet d v = none) :
    nounFormOf (processWord w es d) v w := by
  unfold processWord
  rw [hc]
  show nounFormOf (process_entry w r d) v w
  rw [process_entry_def, hf]
  apply add_inflected_forms_writes_noun _ _ _ _ _ hty hv hve hvw hvd
  rw [listGet_listSet_other _ _ _ _ hvw]
  exact hnone

theorem processWord_preserves_formOf (w : String) (es : List RawEntry) (d : Lexicon)
    (v b : String) (hvw : v ≠ w) (h : nounFormOf d v b) :
    nounFormOf (processWord w es d) v b := by
  obtain ⟨e, he, h1, h2, h3⟩ := h
  exact ⟨e, processWord_preserves _ _ _ _ _ hvw he, h1, h2, h3⟩

theorem parseFold_preserves_formOf (L : List (String × List RawEntry)) (d : Lexicon)
    (v b : String) (hk : ∀ p ∈ L, v ≠ p.1) (h : nounFormOf d v b) :
    nounFormOf (parseFold L d) v b := by
  obtain ⟨e, he, h1, h2, h3⟩ := h
  exact ⟨e, parseFold_preserves _ _ _ _ hk he, h1, h2, h3⟩

/-! The suggestion scan: length bound (for a positive limit), membership, and
iteration order. -/

theorem suggestLoop_spec (p : String) :
    ∀ (data : List (String × Entry)) (limit : Nat), 1 ≤ limit →
      (suggestLoop p limit data).length ≤ limit ∧
      (∀ w ∈ suggestLoop p limit data,
        ∃ e, (w, e) ∈ data ∧ e.is_form = false ∧ pyStartswith w p = true) ∧
      (suggestLoop p limit data).Sublist (data.map Prod.fst) := by
  intro data
  induction data with
  | nil =>
    intro limit hl
    refine ⟨by simp [suggestLoop], by simp [suggestLoop], by simp [suggestLoop]⟩
  | cons q rest ih =>
    intro limit hl
    obtain ⟨w, e⟩ := q
    simp only [suggestLoop, List.map_cons]
    by_cases hc : e.is_form = false ∧ pyStartswith w p = true
    · rw [if_pos hc]
      by_cases hlim : limit ≤ 1
      · rw [if_pos hlim]
        refine ⟨by simpa using hl, ?_, ?_⟩
        · intro x hx
          rcases List.mem_singleton.mp hx with rfl
          exact ⟨e, List.mem_cons_self _ _, hc.1, hc.2⟩
        · exact List.singleton_sublist.mpr (List.mem_cons_self _ _)
      · rw [if_neg hlim]
        have hl2 : 1 ≤ limit - 1 := by omega
        obtain ⟨ihl, ihm, ihs⟩ := ih (limit - 1) hl2
        refine ⟨?_, ?_, ?_⟩
        · simp only [List.length_cons]
          omega
        · intro x hx
          rcases List.mem_cons.mp hx with rfl | hx
          · exact ⟨e, List.mem_cons_self _ _, hc.1, hc.2⟩
          · obtain ⟨e', he', h1, h2⟩ := ihm x hx
            exact ⟨e', List.mem_cons_of_mem _ he', h1, h2⟩
        · exact List.Sublist.cons₂ _ ihs
    · rw [if_neg hc]
      obtain ⟨ihl, ihm, ihs⟩ := ih limit hl
      refine ⟨ihl, ?_, ?_⟩
      · intro x hx
        obtain ⟨e', he', h1, h2⟩ := ihm x hx
        exact ⟨e', List.mem_cons_of_mem _ he', h1, h2⟩
      · exact List.Sublist.cons _ ihs

/-! Claim theorems. -/

theorem self_mem_wordWrites (w : String) (es : List RawEntry) : w ∈ wordWrites w es := by
  unfold wordWrites
  cases chooseRaw w es with
  | none => exact List.mem_singleton.mpr rfl
  | some r => exact List.mem_cons_self _ _

/-- C1: For every query string, `lookup` first normalizes the query by
lowercasing and stripping surrounding whitespace, then resolves it in
three-tier precedence: a key of the strong-verb override table returns a
non-ambiguous result wrapping the stored override record verbatim; otherwise
a key of the ambiguous-word table returns an ambiguous result carrying the
full candidate list; otherwise a key of the compiled lexicon returns a
non-ambiguous result with that entry; otherwise the result is the not-found
value `none`. -/
theorem lookup_three_tier_precedence (sd : SwedishDictionary) (word : String) :
    (∀ v, listGet sd.strong_verbs (normalizeQuery word) = some v →
      lookup sd word = some (.nonAmbiguous v (normalizeQuery word))) ∧
    (listGet sd.strong_verbs (normalizeQuery word) = none →
      ∀ ms, listGet sd.ambiguous_words (normalizeQuery word) = some ms →
        lookup sd word = some (.ambiguous ms (normalizeQuery word))) ∧
    (listGet sd.strong_verbs (normalizeQuery word) = none →
      listGet sd.ambiguous_words (normalizeQuery word) = none →
      ∀ e, listGet sd.data (normalizeQuery word) = some e →
        lookup sd word = some (.nonAmbiguous e (normalizeQuery word))) ∧
    (listGet sd.strong_verbs (normalizeQuery word) = none →
      listGet sd.ambiguous_words (normalizeQuery word) = none →
      listGet sd.data (normalizeQuery word) = none →
      lookup sd word = none) := by
  refine ⟨?_, ?_, ?_, ?_⟩
  · intro v hv
    simp only [lookup]
    rw [hv]
  · intro h1 ms hms
    simp only [lookup]
    rw [h1, hms]
  · intro h1 h2 e he
    simp only [lookup]
    rw [h1, h2, he]
  · intro h1 h2 h3
    simp only [lookup]
    rw [h1, h2, h3]

theorem lookup_three_tier_precedence_witness :
    lookup ⟨[], [], [], [("är", { type := "verb" })]⟩ "ÄR " =
      some (.nonAmbiguous { type := "verb" } "är") :=
  (lookup_three_tier_precedence ⟨[], [], [], [("är", { type := "verb" })]⟩ "ÄR ").1
    { type := "verb" } rfl

/-- C3: during compilation, exploding generated inflected forms never
overwrites an entry already present in the lexicon under the same surface
form: any key that maps to some entry before `add_inflected_forms` maps to
the same entry afterwards (first-write-wins for generated forms). -/
theorem form_explosion_first_write_wins (d : Lexicon) (base_word : String)
    (forms : Option Forms) (entry_data : Entry) (v : String) (e : Entry)
    (h : listGet d v = some e) :
    listGet (add_inflected_forms d base_word forms entry_data) v = some e :=
  add_inflected_forms_preserves_entry d base_word forms entry_data v e h

theorem form_explosion_first_write_wins_witness :
    listGet (add_inflected_forms [("huset", { type := "noun" })] "hus"
      (some (.nn ["hus", "huset", "hus", "husen"]))
      { type := "noun", gender := some "ett" }) "huset" = some { type := "noun" } :=
  form_explosion_first_write_wins _ _ _ _ _ _ rfl

/-- C4: in every compiled lexicon, every form entry's `base_word` is present
as a key of the same lexicon and maps to a non-form (canonical) entry,
regardless of the order of the grouped input. -/
theorem form_entries_base_word_resolves (L : List (String × List RawEntry)) (v : String)
    (e : Entry) (hv : listGet (parse_saldo_final L) v = some e) (hf : e.is_form = true) :
    ∃ b c, e.base_word = some b ∧ listGet (parse_saldo_final L) b = some c ∧
      c.is_form = false := by
  rw [parse_saldo_final_eq_parseFold] at hv ⊢
  exact parseFold_baseRefsValid L [] baseRefsValid_nil v e hv hf

theorem form_entries_base_word_resolves_witness :
    ∃ b c, husetFormEntry.base_word = some b ∧
      listGet (parse_saldo_final husInput) b = some c ∧
      c.is_form = false :=
  form_entries_base_word_resolves husInput "huset" husetFormEntry rfl rfl

/-- C10: the compiler's write of a canonical entry is unconditional, so every
base word of the grouped input ends up mapped to its own canonical (non-form)
entry in the compiled lexicon — a base word processed later replaces any form
entry previously inserted at the same surface form. -/
theorem base_entry_write_is_unconditional (L : List (String × List RawEntry))
    (w : String) (es : List RawEntry) (hnd : (L.map Prod.fst).Nodup)
    (hmem : (w, es) ∈ L) (hne : es ≠ []) :
    ∃ r, chooseRaw w es = some r ∧
      listGet (parse_saldo_final L) w = some (mkBaseEntry w r) ∧
      (mkBaseEntry w r).is_form = false := by
  obtain ⟨L1, L2, rfl⟩ := List.append_of_mem hmem
  obtain ⟨r, hr⟩ := chooseRaw_isSome w es hne
  refine ⟨r, hr, ?_, rfl⟩
  rw [parse_saldo_final_eq_parseFold, parseFold_append, parseFold_cons]
  apply parseFold_preserves
  · have hndall := hnd
    rw [List.map_append, List.map_cons] at hndall
    have hcons := hndall.of_append_right
    have hwL2 : w ∉ L2.map Prod.fst := (List.nodup_cons.mp hcons).1
    intro p hp heq
    exact hwL2 (heq ▸ List.mem_map_of_mem Prod.fst hp)
  · exact processWord_self _ _ _ _ hr

theorem base_entry_write_is_unconditional_witness :
    ∃ r, chooseRaw "husen" [⟨"nn", "nn_6n_hus"⟩] = some r ∧
      listGet (parse_saldo_final
        [("hus", [⟨"nn", "nn_6n_hus"⟩]), ("husen", [⟨"nn", "nn_6n_hus"⟩])]) "husen" =
        some (mkBaseEntry "husen" r) ∧
      (mkBaseEntry "husen" r).is_form = false :=
  base_entry_write_is_unconditional
    [("hus", [⟨"nn", "nn_6n_hus"⟩]), ("husen", [⟨"nn", "nn_6n_hus"⟩])]
    "husen" [⟨"nn", "nn_6n_hus"⟩] (by decide) (by decide) (by decide)

/-- C5: for every base word not covered by a named exception, disambiguation
returns the candidate whose part-of-speech code has the lowest priority
number (`vb` 1, `av` 2, `nn` 3, `ab` 4, `pm` 10, anything else 99, keyed on
the first two characters), breaking ties by earliest input position; the
choice is a pure function of the candidate list, so the same input in the
same order always yields the same candidate. -/
theorem generic_priority_disambiguation (w : String) (es : List RawEntry)
    (h1 : ¬(w = "vara" ∧ es.any (fun e => e.paradigm = "vb_4m_vara") = true))
    (h2 : ¬(w = "ha" ∧ es.any (fun e => e.paradigm = "vb_2m_ha") = true))
    (h3 : ¬(w = "stor" ∧ es.any (fun e => pyStartswith e.partOfSpeech "av") = true))
    (hne : es ≠ []) :
    ∃ (i : Nat) (hi : i < es.length), chooseRaw w es = some (es.get ⟨i, hi⟩) ∧
      (∀ e ∈ es, rawPriority (es.get ⟨i, hi⟩) ≤ rawPriority e) ∧
      (∀ j (hj : j < es.length), j < i →
        rawPriority (es.get ⟨i, hi⟩) < rawPriority (es.get ⟨j, hj⟩)) := by
  have hc : chooseRaw w es = (pySortedBy rawPriority es).head? := by
    unfold chooseRaw
    rw [if_neg h1, if_neg h2, if_neg h3]
  rw [pySortedBy_head] at hc
  cases hf : firstMinBy rawPriority es with
  | none => exact absurd ((firstMinBy_eq_none _ _).mp hf) hne
  | some m =>
    rw [hf] at hc
    obtain ⟨i, hi, hget, hmin, hstrict⟩ := firstMinBy_spec rawPriority es m hf
    refine ⟨i, hi, ?_, ?_, ?_⟩
    · rw [hc]
      exact congrArg some hget.symm
    · intro e he
      rw [hget]
      exact hmin e he
    · intro j hj hji
      rw [hget]
      exact hstrict j hj hji

theorem generic_priority_disambiguation_witness :
    ∃ (i : Nat) (hi : i < ([⟨"pm", "x"⟩, ⟨"nn", "a"⟩, ⟨"nn", "b"⟩] : List RawEntry).length),
      chooseRaw "hund" [⟨"pm", "x"⟩, ⟨"nn", "a"⟩, ⟨"nn", "b"⟩] =
        some (([⟨"pm", "x"⟩, ⟨"nn", "a"⟩, ⟨"nn", "b"⟩] : List RawEntry).get ⟨i, hi⟩) ∧
      (∀ e ∈ ([⟨"pm", "x"⟩, ⟨"nn", "a"⟩, ⟨"nn", "b"⟩] : List RawEntry),
        rawPriority (([⟨"pm", "x"⟩, ⟨"nn", "a"⟩, ⟨"nn", "b"⟩] : List RawEntry).get ⟨i, hi⟩) ≤
          rawPriority e) ∧
      (∀ j (hj : j < ([⟨"pm", "x"⟩, ⟨"nn", "a"⟩, ⟨"nn", "b"⟩] : List RawEntry).length), j < i →
        rawPriority (([⟨"pm", "x"⟩, ⟨"nn", "a"⟩, ⟨"nn", "b"⟩] : List RawEntry).get ⟨i, hi⟩) <
          rawPriority (([⟨"pm", "x"⟩, ⟨"nn", "a"⟩, ⟨"nn", "b"⟩] : List RawEntry).get ⟨j, hj⟩)) :=
  generic_priority_disambiguation "hund" [⟨"pm", "x"⟩, ⟨"nn", "a"⟩, ⟨"nn", "b"⟩]
    (by decide) (by decide) (by decide) (by decide)

/-- C9: a lookup miss is the ordinary `none` value of the total function
`lookup`, never an exception: whenever the normalized query is absent from
all three tiers, `lookup` returns `none`; and a missing or malformed backing
table file at startup initializes that tier as the empty table, so a service
whose lookup-relevant table files are all missing or malformed answers every
query with a miss rather than crashing. -/
theorem lookup_miss_and_init_degrade (sd : SwedishDictionary) (word : String) :
    ((listGet sd.strong_verbs (normalizeQuery word) = none →
      listGet sd.ambiguous_words (normalizeQuery word) = none →
      listGet sd.data (normalizeQuery word) = none →
      lookup sd word = none) ∧
    (∀ (α : Type) (r : LoadResult (List (String × α))),
      (r = .fileMissing ∨ r = .malformed) → loadOrEmpty r = []) ∧
    (∀ (r1 : LoadResult Lexicon) (r2 : LoadResult (List (String × List Entry)))
       (r3 : LoadResult (List (String × String))) (r4 : LoadResult (List (String × Entry))),
      (r1 = .fileMissing ∨ r1 = .malformed) →
      (r2 = .fileMissing ∨ r2 = .malformed) →
      (r4 = .fileMissing ∨ r4 = .malformed) →
      lookup (initService r1 r2 r3 r4) word = none)) := by
  refine ⟨?_, ?_, ?_⟩
  · intro h1 h2 h3
    simp only [lookup]
    rw [h1, h2, h3]
  · intro α r hr
    rcases hr with rfl | rfl <;> rfl
  · intro r1 r2 r3 r4 hr1 hr2 hr4
    have e1 : loadOrEmpty r1 = [] := by rcases hr1 with rfl | rfl <;> rfl
    have e2 : loadOrEmpty r2 = [] := by rcases hr2 with rfl | rfl <;> rfl
    have e4 : loadOrEmpty r4 = [] := by rcases hr4 with rfl | rfl <;> rfl
    simp only [lookup, initService]
    rw [e1, e2, e4]
    rfl

theorem lookup_miss_and_init_degrade_witness :
    lookup (initService .fileMissing .malformed .fileMissing .malformed) "hund" = none :=
  (lookup_miss_and_init_degrade (initService .fileMissing .malformed .fileMissing .malformed)
    "hund").2.2 .fileMissing .malformed .fileMissing .malformed
    (Or.inl rfl) (Or.inr rfl) (Or.inr rfl)

/-- C8 counterexample: with `limit = 0` the scan still returns the first
match, because the source only tests `len(suggestions) >= limit` after
appending; so the returned list has length 1 > 0, refuting "length at most
`n`" for every `n`. -/
theorem suggestions_limit_zero_cex :
    get_suggestions bilService "bi" 0 = ["bil"] ∧
    ¬((get_suggestions bilService "bi" 0).length ≤ 0) := by
  exact ⟨rfl, by decide⟩

/-- C8 amended: for every positive limit `n`, `get_suggestions` returns at
most `n` surface forms, each of which is a non-form (base-word) key of the
lexicon starting with the normalized (lowercased, stripped) query, in lexicon
iteration order (for `n = 0` the scan still returns the first match, see the
counterexample). -/
theorem suggestions_spec (sd : SwedishDictionary) (p : String) (n : Nat) (hn : 1 ≤ n) :
    (get_suggestions sd p n).length ≤ n ∧
    (∀ w ∈ get_suggestions sd p n,
      ∃ e, (w, e) ∈ sd.data ∧ e.is_form = false ∧
        pyStartswith w (normalizeQuery p) = true) ∧
    (get_suggestions sd p n).Sublist (sd.data.map Prod.fst) :=
  suggestLoop_spec (normalizeQuery p) sd.data n hn

theorem suggestions_spec_witness :
    (get_suggestions bilService "bi" 5).length ≤ 5 ∧
    (∀ w ∈ get_suggestions bilService "bi" 5,
      ∃ e, (w, e) ∈ bilService.data ∧ e.is_form = false ∧
        pyStartswith w (normalizeQuery "bi") = true) ∧
    (get_suggestions bilService "bi" 5).Sublist (bilService.data.map Prod.fst) :=
  suggestions_spec bilService "bi" 5 (by decide)

/-- C2 counterexample: in the lexicon compiled from `husHusenInput`, the noun
canonical entry for `hus` has the 4-slot forms table
`["hus","huset","hus","husen"]`, whose slot `husen` is neither `'-'` nor the
base word; yet `husen` maps to the canonical entry of the later-processed
base word `husen` (`is_form = false`, no `base_word`), not to a form entry
with `baseWord = "hus"`. -/
theorem noun_slot_roundtrip_cex :
    (listGet (parse_saldo_final husHusenInput) "hus").map
        (fun e => (e.is_form, e.type, e.forms)) =
      some (false, "noun", some (.nn ["hus", "huset", "hus", "husen"])) ∧
    (listGet (parse_saldo_final husHusenInput) "husen").map
        (fun e => (e.is_form, e.base_word)) = some (false, none) := by
  exact ⟨rfl, rfl⟩

/-- C2 amended: for every noun canonical entry of the compiled lexicon with a
4-slot forms table, every slot value other than `'-'` and the base word
itself resolves to a form entry whose `base_word` is that entry's word,
provided the slot value does not collide with a surface form written for a
different base word (that word itself or any of its generated form values) —
without that proviso the claim fails, see the counterexample. -/
theorem noun_slot_roundtrip (L : List (String × List RawEntry)) (w : String)
    (es : List RawEntry) (r : RawEntry) (fs : List String) (v : String)
    (hnd : (L.map Prod.fst).Nodup)
    (hmem : (w, es) ∈ L)
    (hc : chooseRaw w es = some r)
    (hty : (mkBaseEntry w r).type = "noun")
    (hforms : (mkBaseEntry w r).forms = some (.nn fs))
    (hv : v ∈ fs) (hvw : v ≠ w) (hvd : v ≠ "-")
    (hcol : ∀ p ∈ L, p.1 ≠ w → v ∉ wordWrites p.1 p.2) :
    listGet (parse_saldo_final L) w = some (mkBaseEntry w r) ∧
    nounFormOf (parse_saldo_final L) v w := by
  have hgen : generate_forms w r.paradigm r.partOfSpeech = some (.nn fs) := hforms
  have hve : v ≠ "" := by
    rcases generate_forms_nn_slots _ _ _ _ hgen v hv with h | h | h
    · exact absurd h hvw
    · exact absurd h hvd
    · exact h
  obtain ⟨L1, L2, rfl⟩ := List.append_of_mem hmem
  have hndall := hnd
  rw [List.map_append, List.map_cons] at hndall
  have hdisj := List.disjoint_of_nodup_append hndall
  have hwL1 : ∀ p ∈ L1, p.1 ≠ w := by
    intro p hp heq
    exact hdisj (List.mem_map_of_mem Prod.fst hp) (by rw [heq]; exact List.mem_cons_self _ _)
  have hcons := hndall.of_append_right
  have hwL2 : w ∉ L2.map Prod.fst := (List.nodup_cons.mp hcons).1
  have hkL2ne : ∀ p ∈ L2, w ≠ p.1 := by
    intro p hp heq
    exact hwL2 (heq ▸ List.mem_map_of_mem Prod.fst hp)
  have hkL2v : ∀ p ∈ L2, v ≠ p.1 := by
    intro p hp heq
    have hpw : p.1 ≠ w := fun hh => hkL2ne p hp hh.symm
    have hnmem := hcol p (List.mem_append_right _ (List.mem_cons_of_mem _ hp)) hpw
    exact hnmem (by rw [heq]; exact self_mem_wordWrites _ _)
  have hfresh : listGet (parseFold L1 []) v = none := by
    rw [parseFold_no_write]
    · rfl
    · intro p hp
      exact hcol p (List.mem_append_left _ hp) (hwL1 p hp)
  constructor
  · rw [parse_saldo_final_eq_parseFold, parseFold_append, parseFold_cons]
    apply parseFold_preserves _ _ _ _ hkL2ne
    exact processWord_self _ _ _ _ hc
  · rw [parse_saldo_final_eq_parseFold, parseFold_append, parseFold_cons]
    apply parseFold_preserves_formOf _ _ _ _ hkL2v
    exact processWord_writes_noun _ _ _ _ _ _ hc hty hforms hv hve hvw hvd hfresh

theorem noun_slot_roundtrip_witness :
    listGet (parse_saldo_final husInput) "hus" = some (mkBaseEntry "hus" husRawEntry) ∧
    nounFormOf (parse_saldo_final husInput) "huset" "hus" :=
  noun_slot_roundtrip husInput "hus" [husRawEntry] husRawEntry
    ["hus", "huset", "hus", "husen"] "huset" (by decide) (by decide) rfl rfl rfl
    (by decide) (by decide) (by decide) (by decide)

/-! Reductions of the part-of-speech dispatch under a known code, used by the
two compiler scenarios. -/

theorem pyStartswith_data (s pre : String) (h : pyStartswith s pre = true) :
    ∃ t, s.data = pre.data ++ t := by
  unfold pyStartswith at h
  obtain ⟨t, ht⟩ := List.isPrefixOf_iff_prefix.mp h
  exact ⟨t, ht.symm⟩

theorem startswith_head_ne (s : String) (c1 c2 : Char) (r1 r2 : List Char) (hne : c1 ≠ c2)
    (h : pyStartswith s ⟨c1 :: r1⟩ = true) : pyStartswith s ⟨c2 :: r2⟩ = false := by
  cases hb : pyStartswith s ⟨c2 :: r2⟩ with
  | false => rfl
  | true =>
    exfalso
    obtain ⟨t1, ht1⟩ := pyStartswith_data _ _ h
    obtain ⟨t2, ht2⟩ := pyStartswith_data _ _ hb
    rw [ht1] at ht2
    have h3 : c1 :: (r1 ++ t1) = c2 :: (r2 ++ t2) := by simpa using ht2
    exact hne (List.cons.inj h3).1

theorem pyTake_of_startswith (s pre : String) (n : Nat) (hn : pre.data.length = n)
    (h : pyStartswith s pre = true) : pyTake s n = pre := by
  obtain ⟨t, ht⟩ := pyStartswith_data _ _ h
  unfold pyTake
  rw [ht, ← hn, List.take_left]

theorem get_word_type_vb (pos : String) (h : pyStartswith pos "vb" = true) :
    get_word_type pos = "verb" := by
  have hnnm : pyStartswith pos "nnm" = false :=
    startswith_head_ne pos 'v' 'n' ['b'] ['n', 'm'] (by decide) h
  have havm : pyStartswith pos "avm" = false :=
    startswith_head_ne pos 'v' 'a' ['b'] ['v', 'm'] (by decide) h
  have habm : pyStartswith pos "abm" = false :=
    startswith_head_ne pos 'v' 'a' ['b'] ['b', 'm'] (by decide) h
  have htake2 : pyTake pos 2 = "vb" := pyTake_of_startswith pos "vb" 2 rfl h
  by_cases hvbm : pyStartswith pos "vbm" = true
  · have htake3 : pyTake pos 3 = "vbm" := pyTake_of_startswith pos "vbm" 3 rfl hvbm
    unfold get_word_type
    rw [hvbm, htake3]
    rfl
  · have hvbm' : pyStartswith pos "vbm" = false := by
      cases hb : pyStartswith pos "vbm"
      · rfl
      · exact absurd hb hvbm
    unfold get_word_type
    rw [hvbm', hnnm, havm, habm, htake2]
    rfl

theorem get_word_type_nn (pos : String) (h : pyStartswith pos "nn" = true) :
    get_word_type pos = "noun" := by
  have hvbm : pyStartswith pos "vbm" = false :=
    startswith_head_ne pos 'n' 'v' ['n'] ['b', 'm'] (by decide) h
  have havm : pyStartswith pos "avm" = false :=
    startswith_head_ne pos 'n' 'a' ['n'] ['v', 'm'] (by decide) h
  have habm : pyStartswith pos "abm" = false :=
    startswith_head_ne pos 'n' 'a' ['n'] ['b', 'm'] (by decide) h
  have htake2 : pyTake pos 2 = "nn" := pyTake_of_startswith pos "nn" 2 rfl h
  by_cases hnnm : pyStartswith pos "nnm" = true
  · have htake3 : pyTake pos 3 = "nnm" := pyTake_of_startswith pos "nnm" 3 rfl hnnm
    unfold get_word_type
    rw [hvbm, hnnm, htake3]
    rfl
  · have hnnm' : pyStartswith pos "nnm" = false := by
      cases hb : pyStartswith pos "nnm"
      · rfl
      · exact absurd hb hnnm
    unfold get_word_type
    rw [hvbm, hnnm', havm, habm, htake2]
    rfl

theorem startswith_vb_not_nn (pos : String) (h : pyStartswith pos "vb" = true) :
    pyStartswith pos "nn" = false :=
  startswith_head_ne pos 'v' 'n' ['b'] ['n'] (by decide) h

theorem startswith_nn_not_vb (pos : String) (h : pyStartswith pos "nn" = true) :
    pyStartswith pos "vb" = false :=
  startswith_head_ne pos 'n' 'v' ['n'] ['b'] (by decide) h

/-- C6 counterexample: the raw entries for `vara` here include a
non-verb-paradigm candidate and a candidate whose paradigm is `vb_4m_vara`,
yet the compiled entry has `type = "noun"` (not verb) and `lookup "ÄR"`
misses, because the forced candidate's `partOfSpeech` is `nn`: the compiler
selects by paradigm but derives the type and the forms from the
part-of-speech code. -/
theorem vara_scenario_cex :
    (∃ e ∈ ([⟨"nn", "x"⟩, ⟨"nn", "vb_4m_vara"⟩] : List RawEntry),
      e.paradigm ≠ "vb_4m_vara") ∧
    (∃ e ∈ ([⟨"nn", "x"⟩, ⟨"nn", "vb_4m_vara"⟩] : List RawEntry),
      e.paradigm = "vb_4m_vara") ∧
    (listGet (parse_saldo_final [("vara", [⟨"nn", "x"⟩, ⟨"nn", "vb_4m_vara"⟩])]) "vara").map
      Entry.type = some "noun" ∧
    lookup (serviceOf
      (parse_saldo_final [("vara", [⟨"nn", "x"⟩, ⟨"nn", "vb_4m_vara"⟩])])) "ÄR" = none := by
  exact ⟨by decide, by decide, rfl, rfl⟩

/-- C6 amended: if the raw entries for `vara` include a non-verb-paradigm
candidate together with a candidate whose paradigm is `vb_4m_vara`, and the
first such candidate (the one the compiler selects) carries a verb
part-of-speech code (starting with `vb`), then the compiled canonical entry
for `vara` has type verb with forms infinitive `vara`, present `är`, past
`var`, supine `varit`, and `lookup "ÄR"` on a service backed by the resulting
lexicon (with empty override and ambiguous tables) returns the verb form
entry with form type `present` and base word `vara`. -/
theorem vara_strong_verb_scenario (es : List RawEntry) (e0 : RawEntry)
    (hnv : ∃ e ∈ es, e.paradigm ≠ "vb_4m_vara")
    (hfind : es.find? (fun e => e.paradigm = "vb_4m_vara") = some e0)
    (hpos : pyStartswith e0.partOfSpeech "vb" = true) :
    ∃ be fe,
      listGet (parse_saldo_final [("vara", es)]) "vara" = some be ∧
      be.is_form = false ∧ be.type = "verb" ∧
      be.forms = some (.vb ⟨"vara", "är", "var", "varit"⟩) ∧
      lookup (serviceOf (parse_saldo_final [("vara", es)])) "ÄR" =
        some (.nonAmbiguous fe "är") ∧
      fe.is_form = true ∧ fe.type = "verb" ∧
      fe.form_type = some "present" ∧ fe.base_word = some "vara" := by
  obtain ⟨pos0, par0⟩ := e0
  have hp0 := List.find?_some hfind
  have hpar : par0 = "vb_4m_vara" := of_decide_eq_true hp0
  subst hpar
  have hpos' : pyStartswith pos0 "vb" = true := hpos
  have hmem0 := List.mem_of_find?_eq_some hfind
  have hany : es.any (fun e => e.paradigm = "vb_4m_vara") = true :=
    List.any_eq_true.mpr ⟨⟨pos0, "vb_4m_vara"⟩, hmem0, rfl⟩
  have hcr : chooseRaw "vara" es = some ⟨pos0, "vb_4m_vara"⟩ := by
    unfold chooseRaw
    rw [if_pos ⟨rfl, hany⟩]
    exact hfind
  have hnnf : pyStartswith pos0 "nn" = false := startswith_vb_not_nn pos0 hpos'
  have hty : get_word_type pos0 = "verb" := get_word_type_vb pos0 hpos'
  have hgroup : get_group "vb_4m_vara" pos0 = "Irregular verb (vara)" := by
    unfold get_group
    rw [hnnf, hpos']
    rfl
  have hforms : generate_forms "vara" "vb_4m_vara" pos0 =
      some (.vb ⟨"vara", "är", "var", "varit"⟩) := by
    unfold generate_forms
    rw [hpos']
    rfl
  have hbe : mkBaseEntry "vara" ⟨pos0, "vb_4m_vara"⟩ =
      Entry.mk (some "vara") "verb" (some "vb_4m_vara") (some "Irregular verb (vara)")
        none (some (.vb ⟨"vara", "är", "var", "varit"⟩)) false none none := by
    simp only [mkBaseEntry]
    rw [hty, hgroup, hforms, hnnf]
    rfl
  have hD : parse_saldo_final [("vara", es)] =
      [("vara", Entry.mk (some "vara") "verb" (some "vb_4m_vara")
          (some "Irregular verb (vara)") none
          (some (.vb ⟨"vara", "är", "var", "varit"⟩)) false none none),
       ("är", Entry.mk none "verb" none (some "Irregular verb (vara)") none
          (some (.vb ⟨"vara", "är", "var", "varit"⟩)) true (some "vara") (some "present")),
       ("var", Entry.mk none "verb" none (some "Irregular verb (vara)") none
          (some (.vb ⟨"vara", "är", "var", "varit"⟩)) true (some "vara") (some "past")),
       ("varit", Entry.mk none "verb" none (some "Irregular verb (vara)") none
          (some (.vb ⟨"vara", "är", "var", "varit"⟩)) true (some "vara") (some "supine"))] := by
    show processWord "vara" es [] = _
    unfold processWord
    rw [hcr]
    show process_entry "vara" ⟨pos0, "vb_4m_vara"⟩ [] = _
    rw [process_entry_def, hbe]
    rfl
  rw [hD]
  exact ⟨_, _, rfl, rfl, rfl, rfl, rfl, rfl, rfl, rfl, rfl⟩

/-- C7: compiling the noun entry `hus` whose paradigm matches the declension
5 pattern ("ett, no change": contains `_6` and none of the earlier declension
markers) produces the 4-slot forms list `["hus","huset","hus","husen"]`, the
entry at `hus` stays the canonical (non-form) entry — the plural-indefinite
slot, equal to the base word, generates no form entry — and `lookup "huset"`
on a service backed by the resulting lexicon returns a form entry with form
type `singular definite`. -/
theorem hus_ett_no_change_scenario (pos p : String)
    (hpos : pyStartswith pos "nn" = true)
    (h0 : pyContains p "_0" = false) (h1 : pyContains p "_1" = false)
    (h2 : pyContains p "_2" = false) (h3 : pyContains p "_3" = false)
    (h5n : pyContains p "_5n" = false) (h6 : pyContains p "_6" = true) :
    ∃ be fe,
      listGet (parse_saldo_final [("hus", [⟨pos, p⟩])]) "hus" = some be ∧
      be.is_form = false ∧ be.type = "noun" ∧
      be.forms = some (.nn ["hus", "huset", "hus", "husen"]) ∧
      lookup (serviceOf (parse_saldo_final [("hus", [⟨pos, p⟩])])) "huset" =
        some (.nonAmbiguous fe "huset") ∧
      fe.is_form = true ∧ fe.form_type = some "singular definite" ∧
      fe.base_word = some "hus" := by
  have hvbf : pyStartswith pos "vb" = false := startswith_nn_not_vb pos hpos
  have hty : get_word_type pos = "noun" := get_word_type_nn pos hpos
  have h5n' : pyContains p "nn_5n" = false := by
    cases hb : pyContains p "nn_5n"
    · rfl
    · exfalso
      have hinf : ("nn_5n".data : List Char) <:+: p.data := of_decide_eq_true hb
      have hinf2 : ("_5n".data : List Char) <:+: p.data :=
        List.IsInfix.trans (by decide) hinf
      rw [show pyContains p "_5n" = decide (("_5n".data : List Char) <:+: p.data) from rfl]
        at h5n
      rw [decide_eq_true hinf2] at h5n
      cases h5n
  have hforms : generate_forms "hus" p pos = some (.nn ["hus", "huset", "hus", "husen"]) := by
    unfold generate_forms generate_noun_forms
    rw [hvbf, hpos, h0, h1, h2, h3, h5n', h6]
    rfl
  have hgroup : get_group p pos = "Declension 5 (ett, no change)" := by
    unfold get_group
    rw [hpos, h0, h1, h2, h3, h5n, h6]
    rfl
  have hbe : mkBaseEntry "hus" ⟨pos, p⟩ =
      Entry.mk (some "hus") "noun" (some p) (some "Declension 5 (ett, no change)")
        (some (get_gender p)) (some (.nn ["hus", "huset", "hus", "husen"])) false
        none none := by
    simp only [mkBaseEntry]
    rw [hty, hgroup, hforms, hpos]
    rfl
  have hn1 : ¬("hus" = "vara" ∧
      ([⟨pos, p⟩] : List RawEntry).any (fun e => e.paradigm = "vb_4m_vara") = true) :=
    fun hh => absurd hh.1 (by decide)
  have hn2 : ¬("hus" = "ha" ∧
      ([⟨pos, p⟩] : List RawEntry).any (fun e => e.paradigm = "vb_2m_ha") = true) :=
    fun hh => absurd hh.1 (by decide)
  have hn3 : ¬("hus" = "stor" ∧
      ([⟨pos, p⟩] : List RawEntry).any (fun e => pyStartswith e.partOfSpeech "av") = true) :=
    fun hh => absurd hh.1 (by decide)
  have hcr : chooseRaw "hus" [⟨pos, p⟩] = some ⟨pos, p⟩ := by
    unfold chooseRaw
    rw [if_neg hn1, if_neg hn2, if_neg hn3]
    rfl
  have hD : parse_saldo_final [("hus", [⟨pos, p⟩])] =
      [("hus", Entry.mk (some "hus") "noun" (some p)
          (some "Declension 5 (ett, no change)") (some (get_gender p))
          (some (.nn ["hus", "huset", "hus", "husen"])) false none none),
       ("huset", Entry.mk none "noun" none (some "Declension 5 (ett, no change)")
          (some (get_gender p)) (some (.nn ["hus", "huset", "hus", "husen"])) true
          (some "hus") (some "singular definite")),
       ("husen", Entry.mk none "noun" none (some "Declension 5 (ett, no change)")
          (some (get_gender p)) (some (.nn ["hus", "huset", "hus", "husen"])) true
          (some "hus") (some "plural definite"))] := by
    show processWord "hus" [⟨pos, p⟩] [] = _
    unfold processWord
    rw [hcr]
    show process_entry "hus" ⟨pos, p⟩ [] = _
    rw [process_entry_def, hbe]
    rfl
  rw [hD]
  exact ⟨_, _, rfl, rfl, rfl, rfl, rfl, rfl, rfl, rfl⟩

theorem hus_ett_no_change_scenario_witness :
    ∃ be fe,
      listGet (parse_saldo_final [("hus", [⟨"nn", "nn_6n_hus"⟩])]) "hus" = some be ∧
      be.is_form = false ∧ be.type = "noun" ∧
      be.forms = some (.nn ["hus", "huset", "hus", "husen"]) ∧
      lookup (serviceOf (parse_saldo_final [("hus", [⟨"nn", "nn_6n_hus"⟩])])) "huset" =
        some (.nonAmbiguous fe "huset") ∧
      fe.is_form = true ∧ fe.form_type = some "singular definite" ∧
      fe.base_word = some "hus" :=
  hus_ett_no_change_scenario "nn" "nn_6n_hus" (by decide) (by decide) (by decide)
    (by decide) (by decide) (by decide) (by decide)

theorem vara_strong_verb_scenario_witness :
    ∃ be fe,
      listGet (parse_saldo_final [("vara", [⟨"nn", "x"⟩, ⟨"vb", "vb_4m_vara"⟩])]) "vara" =
        some be ∧
      be.is_form = false ∧ be.type = "verb" ∧
      be.forms = some (.vb ⟨"vara", "är", "var", "varit"⟩) ∧
      lookup (serviceOf
        (parse_saldo_final [("vara", [⟨"nn", "x"⟩, ⟨"vb", "vb_4m_vara"⟩])])) "ÄR" =
        some (.nonAmbiguous fe "är") ∧
      fe.is_form = true ∧ fe.type = "verb" ∧
      fe.form_type = some "present" ∧ fe.base_word = some "vara" :=
  vara_strong_verb_scenario [⟨"nn", "x"⟩, ⟨"vb", "vb_4m_vara"⟩] ⟨"vb", "vb_4m_vara"⟩
    (by decide) (by decide) (by decide)
